import Mathlib

/-!
Shallow embedding of the Scrabble bot move-generation engine
(`bot-ai.js` / `dictionary-trie.js`) and proofs about it.

Conventions of the embedding:
* JS strings are `List Char`; `''`/`null` board cells are `Option.none`.
* `String.prototype.toUpperCase` is modelled per character by `jsToUpper`
  (the ASCII case mapping, which is what the engine's data exercises).
* JS `Map` objects keyed by characters are modelled as association lists
  preserving insertion order (`ChildList`), matching `Map` iteration order.
* Exceptions thrown by the JS code (indexing a missing board row yields
  `undefined`, and reading a property of `undefined` throws) are modelled
  with `Except Unit`; `.error ()` marks a thrown `TypeError`.
-/

namespace Scrabble

/-- Per-character model of `String.prototype.toUpperCase` (the ASCII case
mapping, which is what the engine's data exercises). -/
def jsToUpper (c : Char) : Char := c.toUpper

theorem char_toNat_ofNat {n : Nat} (h : n.isValidChar) : (Char.ofNat n).toNat = n := by
  rw [Char.ofNat, dif_pos h]
  rfl

theorem jsToUpper_idem (c : Char) : jsToUpper (jsToUpper c) = jsToUpper c := by
  unfold jsToUpper Char.toUpper
  by_cases h : c.toNat ≥ 97 ∧ c.toNat ≤ 122
  · rw [if_pos h]
    have hv : (c.toNat - 32).isValidChar := Or.inl (by omega)
    have ht : (Char.ofNat (c.toNat - 32)).toNat = c.toNat - 32 := char_toNat_ofNat hv
    rw [ht, if_neg (by omega)]
  · rw [if_neg h, if_neg h]

/-! ## The trie dictionary (`dictionary-trie.js`) -/

mutual
/-- `class TrieNode`: `children` (a `Map` in insertion order), `isEndOfWord`,
and the (never-updated) per-node `wordCount` field. -/
inductive TrieNode where
  | mk (children : ChildList) (isEndOfWord : Bool) (wordCount : Nat)

/-- The `children` map of a `TrieNode`, as an insertion-ordered association list. -/
inductive ChildList where
  | nil
  | cons (key : Char) (node : TrieNode) (tail : ChildList)
end

/-- `new TrieNode()`. -/
def TrieNode.empty : TrieNode := .mk .nil false 0

def TrieNode.children : TrieNode → ChildList
  | .mk ch _ _ => ch

def TrieNode.isEndOfWord : TrieNode → Bool
  | .mk _ e _ => e

/-- `children.get(c)` (`undefined` ↦ `none`). -/
def ChildList.get : ChildList → Char → Option TrieNode
  | .nil, _ => none
  | .cons k n t, c => if k = c then some n else t.get c

/-- `children.set(c, n)`: overwrite an existing key in place, else append
(JS `Map.set` preserves insertion order for existing keys and appends new ones). -/
def ChildList.set : ChildList → Char → TrieNode → ChildList
  | .nil, c, n => .cons c n .nil
  | .cons k m t, c, n => if k = c then .cons k n t else .cons k m (t.set c n)

/-- `class TrieDict`: root node, loaded word count, `loaded` flag. -/
structure TrieDict where
  root : TrieNode
  wordCount : Nat
  loaded : Bool

/-- `new TrieDict()`. -/
def TrieDict.mkEmpty : TrieDict := ⟨TrieNode.empty, 0, false⟩

/-- The recursive walk of `TrieDict.insert`: returns the rebuilt node and
whether a new terminal was created (i.e. whether `wordCount` is incremented). -/
def TrieNode.insertW : TrieNode → List Char → TrieNode × Bool
  | .mk ch e wc, [] => (.mk ch true wc, !e)
  | .mk ch e wc, c :: cs =>
    let child := match ch.get c with
      | some t => t
      | none => TrieNode.empty
    let res := TrieNode.insertW child cs
    (.mk (ch.set c res.1) e wc, res.2)

/-- `TrieDict.insert(word)`. -/
def TrieDict.insert (d : TrieDict) (w : List Char) : TrieDict :=
  let res := d.root.insertW w
  { root := res.1
    wordCount := d.wordCount + (if res.2 then 1 else 0)
    loaded := d.loaded }

/-- `TrieDict.loadDictionary(wordsArray)`: insert each word upper-cased, then
mark the dictionary loaded. -/
def TrieDict.loadDictionary (d : TrieDict) (ws : List (List Char)) : TrieDict :=
  let d' := ws.foldl (fun acc w => acc.insert (w.map jsToUpper)) d
  { d' with loaded := true }

/-- Following a character path from a node (`current = current.children.get(char)`
per step); `none` models falling off the trie. -/
def TrieNode.walk : TrieNode → List Char → Option TrieNode
  | t, [] => some t
  | t, c :: cs =>
    match t.children.get c with
    | some u => u.walk cs
    | none => none

/-- `TrieDict.isValidWord(word)`: false when not loaded or the word is the
empty (falsy) string; otherwise walk the upper-cased word and read the
terminal flag. -/
def TrieDict.isValidWord (d : TrieDict) (w : List Char) : Bool :=
  if ¬ d.loaded ∨ w = [] then false
  else
    match d.root.walk (w.map jsToUpper) with
    | some t => t.isEndOfWord
    | none => false

/-- Decrement the available count of one letter
(`availableLetters.set(letter, get(letter) - 1)`, with the delete-at-zero
bookkeeping folded into the count function). -/
def decAt (avail : Char → Nat) (letter : Char) : Char → Nat :=
  fun c => if c = letter then avail c - 1 else avail c

mutual
/-- `TrieDict.searchWords(node, currentWord, availableLetters, words, minLength,
maxLength)`: the mutable `words` accumulator is modelled by returning the list
of words pushed, in push order. -/
def searchWords : TrieNode → List Char → (Char → Nat) → Nat → Nat → List (List Char)
  | .mk ch e _, currentWord, avail, minLength, maxLength =>
    if currentWord.length > maxLength then []
    else
      (if e ∧ minLength ≤ currentWord.length then [currentWord] else [])
        ++ searchChildren ch currentWord avail minLength maxLength

/-- The `for (const [letter, childNode] of node.children)` loop of
`searchWords`; the mutate-then-backtrack of `availableLetters` is modelled by
passing the decremented count only into the recursive call. -/
def searchChildren : ChildList → List Char → (Char → Nat) → Nat → Nat → List (List Char)
  | .nil, _, _, _, _ => []
  | .cons letter child rest, currentWord, avail, minLength, maxLength =>
    (if avail letter > 0 then
      searchWords child (currentWord ++ [letter]) (decAt avail letter) minLength maxLength
     else [])
      ++ searchChildren rest currentWord avail minLength maxLength
end

/-- `countLetters(letters)` as a count function: `letters.count c` is the
entry of the JS `Map` (absent keys count 0). -/
def countLetters (letters : List Char) : Char → Nat :=
  fun c => letters.count c

/-- The JS sort comparator `(a, b) => b.length - a.length || a.localeCompare(b)`
as the predicate "`a` sorts no later than `b`": longer first, ties broken
lexicographically ascending. -/
def lexLe : List Char → List Char → Bool
  | [], _ => true
  | _ :: _, [] => false
  | a :: as, b :: bs => if a < b then true else if b < a then false else lexLe as bs

def wordLe (a b : List Char) : Bool :=
  decide (b.length < a.length) || (a.length == b.length && lexLe a b)

/-- Stable insertion step of the sort. -/
def orderedIns {α : Type} (le : α → α → Bool) (x : α) : List α → List α
  | [] => [x]
  | y :: l => if le x y then x :: y :: l else y :: orderedIns le x l

/-- A stable sort by the given total preorder; `Array.prototype.sort` is
specified to be stable, and a stable sort's output is determined by the
comparator, so this agrees with the JS sort. -/
def jsSortBy {α : Type} (le : α → α → Bool) (l : List α) : List α :=
  l.foldr (orderedIns le) []

theorem orderedIns_perm {α : Type} (le : α → α → Bool) (x : α) (l : List α) :
    (orderedIns le x l).Perm (x :: l) := by
  induction l with
  | nil => simp [orderedIns]
  | cons y t ih =>
    simp only [orderedIns]
    by_cases h : le x y = true
    · simp [h]
    · simp only [h, if_false]
      exact (List.Perm.cons y ih).trans (List.Perm.swap x y t)

theorem jsSortBy_perm {α : Type} (le : α → α → Bool) (l : List α) :
    (jsSortBy le l).Perm l := by
  induction l with
  | nil => simp [jsSortBy]
  | cons x t ih =>
    simp only [jsSortBy, List.foldr]
    exact (orderedIns_perm le x _).trans (List.Perm.cons x ih)

/-- `TrieDict.findWords(letters, minLength, maxLength)`. -/
def TrieDict.findWords (d : TrieDict) (letters : List Char)
    (minLength maxLength : Nat) : List (List Char) :=
  if ¬ d.loaded then []
  else
    jsSortBy wordLe
      (searchWords d.root [] (countLetters (letters.map jsToUpper)) minLength maxLength)

/-! ## Board model and `MoveCalculator` (`bot-ai.js`)

JS exceptions are modelled with `Except Unit`: indexing a missing board row
gives `undefined` and reading `undefined[col]` throws, which is `.error ()`. -/

/-- `LETTER_VALUES` (including the blank `'*'` at 0); absent keys are
`undefined` (`none`). -/
def LETTER_VALUES : Char → Option Nat := fun c =>
  match c with
  | 'A' | 'E' | 'I' | 'O' | 'U' | 'L' | 'N' | 'S' | 'T' | 'R' => some 1
  | 'D' | 'G' => some 2
  | 'B' | 'C' | 'M' | 'P' => some 3
  | 'F' | 'H' | 'V' | 'W' | 'Y' => some 4
  | 'K' => some 5
  | 'J' | 'X' => some 8
  | 'Q' | 'Z' => some 10
  | '*' => some 0
  | _ => none

/-- A premium-square marker of `BOARD_LAYOUT` (`''`, `'DL'`, `'TL'`, `'DW'`,
`'TW'`, or the centre star `'*'`). -/
inductive Premium where
  | norm | dl | tl | dw | tw | star
deriving DecidableEq

/-- The 15×15 `BOARD_LAYOUT` constant. -/
def BOARD_LAYOUT : List (List Premium) :=
  [[.tw, .norm, .norm, .dl, .norm, .norm, .norm, .tw, .norm, .norm, .norm, .dl, .norm, .norm, .tw],
   [.norm, .dw, .norm, .norm, .norm, .tl, .norm, .norm, .norm, .tl, .norm, .norm, .norm, .dw, .norm],
   [.norm, .norm, .dw, .norm, .norm, .norm, .dl, .norm, .dl, .norm, .norm, .norm, .dw, .norm, .norm],
   [.dl, .norm, .norm, .dw, .norm, .norm, .norm, .dl, .norm, .norm, .norm, .dw, .norm, .norm, .dl],
   [.norm, .norm, .norm, .norm, .dw, .norm, .norm, .norm, .norm, .norm, .dw, .norm, .norm, .norm, .norm],
   [.norm, .tl, .norm, .norm, .norm, .tl, .norm, .norm, .norm, .tl, .norm, .norm, .norm, .tl, .norm],
   [.norm, .norm, .dl, .norm, .norm, .norm, .dl, .norm, .dl, .norm, .norm, .norm, .dl, .norm, .norm],
   [.tw, .norm, .norm, .dl, .norm, .norm, .norm, .star, .norm, .norm, .norm, .dl, .norm, .norm, .tw],
   [.norm, .norm, .dl, .norm, .norm, .norm, .dl, .norm, .dl, .norm, .norm, .norm, .dl, .norm, .norm],
   [.norm, .tl, .norm, .norm, .norm, .tl, .norm, .norm, .norm, .tl, .norm, .norm, .norm, .tl, .norm],
   [.norm, .norm, .norm, .norm, .dw, .norm, .norm, .norm, .norm, .norm, .dw, .norm, .norm, .norm, .norm],
   [.dl, .norm, .norm, .dw, .norm, .norm, .norm, .dl, .norm, .norm, .norm, .dw, .norm, .norm, .dl],
   [.norm, .norm, .dw, .norm, .norm, .norm, .dl, .norm, .dl, .norm, .norm, .norm, .dw, .norm, .norm],
   [.norm, .dw, .norm, .norm, .norm, .tl, .norm, .norm, .norm, .tl, .norm, .norm, .norm, .dw, .norm],
   [.tw, .norm, .norm, .dl, .norm, .norm, .norm, .tw, .norm, .norm, .norm, .dl, .norm, .norm, .tw]]

/-- `BOARD_LAYOUT[row][col]`. All call sites pass coordinates already checked
to be within 0‥14, so the out-of-range default is never exercised. -/
def layoutAt (r c : Nat) : Premium :=
  ((BOARD_LAYOUT.get? r).bind (fun row => row.get? c)).getD .norm

/-- A board is a JS array of rows; a cell is `''`/`null` (`none`) or a
one-letter string (`some c`). -/
abbrev Board := List (List (Option Char))

/-- A board cell as JavaScript reads it: a missing column index inside an
existing row is `undefined`, `''` and `null` are the (falsy) empty cell, and a
letter string is truthy. -/
inductive JsVal where
  | undef | emptyCell | letter (c : Char)
deriving DecidableEq

/-- `board[r][c]`: a missing row makes the column read throw (`.error ()`). -/
def cellE (b : Board) (r c : Nat) : Except Unit JsVal :=
  match List.get? b r with
  | none => .error ()
  | some row =>
    .ok (match List.get? row c with
      | none => .undef
      | some none => .emptyCell
      | some (some ch) => .letter ch)

def JsVal.isLetter : JsVal → Bool
  | .letter _ => true
  | _ => false

/-- An anchor point `{ row, col }` (the `isCenter` flag set on the synthetic
centre anchor is never read, so it is not modelled). -/
structure Anchor where
  row : Nat
  col : Nat
deriving DecidableEq

inductive Direction where
  | horizontal | vertical
deriving DecidableEq

structure Placement where
  row : Nat
  col : Nat
  letter : Char
deriving DecidableEq

/-- A candidate move as built by `tryPlaceWord`. -/
structure Move where
  placements : List Placement
  tilesUsed : List Char
  score : Nat
  word : List Char
  direction : Direction
  anchor : Anchor
deriving DecidableEq

/-- `MoveCalculator.hasAdjacentTile`: probe the four neighbours in source
order, bounds-checking before each read and stopping at the first tile. -/
def hasAdjacentTileE (b : Board) (row col : Nat) : Except Unit Bool :=
  match (if 1 ≤ row ∧ row - 1 < 15 ∧ col < 15
         then Except.map JsVal.isLetter (cellE b (row - 1) col) else .ok false) with
  | .error e => .error e
  | .ok true => .ok true
  | .ok false =>
  match (if row + 1 < 15 ∧ col < 15
         then Except.map JsVal.isLetter (cellE b (row + 1) col) else .ok false) with
  | .error e => .error e
  | .ok true => .ok true
  | .ok false =>
  match (if row < 15 ∧ 1 ≤ col ∧ col - 1 < 15
         then Except.map JsVal.isLetter (cellE b row (col - 1)) else .ok false) with
  | .error e => .error e
  | .ok true => .ok true
  | .ok false =>
  match (if row < 15 ∧ col + 1 < 15
         then Except.map JsVal.isLetter (cellE b row (col + 1)) else .ok false) with
  | .error e => .error e
  | .ok last => .ok last

/-- Inner column loop of `MoveCalculator.findAnchorPoints`. -/
def anchorsInCols (b : Board) (r : Nat) : List Nat → Except Unit (List Anchor)
  | [] => .ok []
  | c :: cs =>
    match cellE b r c with
    | .error e => .error e
    | .ok v =>
      if v = .emptyCell then
        match hasAdjacentTileE b r c with
        | .error e => .error e
        | .ok adj =>
          match anchorsInCols b r cs with
          | .error e => .error e
          | .ok rest => .ok ((if adj then [⟨r, c⟩] else []) ++ rest)
      else
        anchorsInCols b r cs

/-- Outer row loop of `MoveCalculator.findAnchorPoints`. -/
def anchorRows (b : Board) : List Nat → Except Unit (List Anchor)
  | [] => .ok []
  | r :: rs =>
    match anchorsInCols b r (List.range 15) with
    | .error e => .error e
    | .ok here =>
      match anchorRows b rs with
      | .error e => .error e
      | .ok rest => .ok (here ++ rest)

/-- `MoveCalculator.findAnchorPoints(board)`. -/
def findAnchorPointsE (b : Board) : Except Unit (List Anchor) :=
  anchorRows b (List.range 15)

/-- `LETTER_VALUES[letter] || 1`: both `undefined` and `0` (the blank) are
falsy, so they default to 1. -/
def jsOrOne (v : Option Nat) : Nat :=
  match v with
  | some 0 => 1
  | some n => n
  | none => 1

/-- The placement loop of `MoveCalculator.tryPlaceWord`, accumulating
`placements`, `tilesUsed`, `score` and `wordMultiplier`; `.ok none` models
`return null`. -/
def placeLoop (b : Board) (rack : List Char) (isH : Bool) (ar ac : Nat) :
    List Char → Nat → List Placement → List Char → Nat → Nat →
    Except Unit (Option (List Placement × List Char × Nat × Nat))
  | [], _, pl, tu, sc, wm => .ok (some (pl, tu, sc, wm))
  | letter :: rest, i, pl, tu, sc, wm =>
    let row := if isH then ar else ar + i
    let col := if isH then ac + i else ac
    if row ≥ 15 ∨ col ≥ 15 then .ok none
    else
      match cellE b row col with
      | .error e => .error e
      | .ok (.letter existing) =>
        if existing = letter then placeLoop b rack isH ar ac rest (i + 1) pl tu sc wm
        else .ok none
      | .ok _ =>
        if letter ∈ rack then
          let tileScore := jsOrOne (LETTER_VALUES letter)
          let premium := layoutAt row col
          let tileScore :=
            if premium = .dl then tileScore * 2
            else if premium = .tl then tileScore * 3
            else tileScore
          let wm :=
            if premium = .dw then wm * 2
            else if premium = .tw then wm * 3
            else wm
          placeLoop b rack isH ar ac rest (i + 1)
            (pl ++ [⟨row, col, letter⟩]) (tu ++ [letter]) (sc + tileScore) wm
        else .ok none

/-- `MoveCalculator.tryPlaceWord(board, word, anchor, direction, rack)`. -/
def tryPlaceWordE (b : Board) (word : List Char) (anchor : Anchor)
    (dir : Direction) (rack : List Char) : Except Unit (Option Move) :=
  match placeLoop b rack (dir = Direction.horizontal) anchor.row anchor.col
      word 0 [] [] 0 1 with
  | .error e => .error e
  | .ok none => .ok none
  | .ok (some (pl, tu, sc, wm)) =>
    if pl = [] then .ok none
    else .ok (some ⟨pl, tu, sc * wm + (if tu.length = 7 then 50 else 0), word, dir, anchor⟩)

/-- The `while (startRow > 0 && board[startRow - 1][col])` scan of
`MoveCalculator.getVerticalWord`. -/
def findWordStartV (b : Board) (col : Nat) : Nat → Except Unit Nat
  | 0 => .ok 0
  | r + 1 =>
    match cellE b r col with
    | .error e => .error e
    | .ok (.letter _) => findWordStartV b col r
    | .ok _ => .ok (r + 1)

/-- The `while (currentRow < 15 && board[currentRow][col])` word builder of
`MoveCalculator.getVerticalWord`; `fuel` only bounds the recursion and is
always called with at least `16`, more than the 15 possible iterations. -/
def buildWordDownV (b : Board) (col : Nat) : Nat → Nat → Except Unit (List Char)
  | _, 0 => .ok []
  | r, fuel + 1 =>
    if r < 15 then
      match cellE b r col with
      | .error e => .error e
      | .ok (.letter c) =>
        match buildWordDownV b col (r + 1) fuel with
        | .error e => .error e
        | .ok rest => .ok (c :: rest)
      | .ok _ => .ok []
    else .ok []

/-- `MoveCalculator.getVerticalWord(board, row, col)`. -/
def getVerticalWordE (b : Board) (row col : Nat) : Except Unit (List Char) :=
  match findWordStartV b col row with
  | .error e => .error e
  | .ok s => buildWordDownV b col s 16

/-- The `while (startCol > 0 && board[row][startCol - 1])` scan of
`MoveCalculator.getHorizontalWord`. -/
def findWordStartH (b : Board) (row : Nat) : Nat → Except Unit Nat
  | 0 => .ok 0
  | c + 1 =>
    match cellE b row c with
    | .error e => .error e
    | .ok (.letter _) => findWordStartH b row c
    | .ok _ => .ok (c + 1)

/-- The `while (currentCol < 15 && board[row][currentCol])` word builder of
`MoveCalculator.getHorizontalWord`. -/
def buildWordRightH (b : Board) (row : Nat) : Nat → Nat → Except Unit (List Char)
  | _, 0 => .ok []
  | c, fuel + 1 =>
    if c < 15 then
      match cellE b row c with
      | .error e => .error e
      | .ok (.letter ch) =>
        match buildWordRightH b row (c + 1) fuel with
        | .error e => .error e
        | .ok rest => .ok (ch :: rest)
      | .ok _ => .ok []
    else .ok []

/-- `MoveCalculator.getHorizontalWord(board, row, col)`. -/
def getHorizontalWordE (b : Board) (row col : Nat) : Except Unit (List Char) :=
  match findWordStartH b row col with
  | .error e => .error e
  | .ok s => buildWordRightH b row s 16

/-- `MoveCalculator.getCrossWords(board, placement, mainDirection)`. -/
def getCrossWordsE (b : Board) (p : Placement) (mainDirection : Direction) :
    Except Unit (List (List Char)) :=
  match mainDirection with
  | .horizontal =>
    match getVerticalWordE b p.row p.col with
    | .error e => .error e
    | .ok w => .ok (if w.length > 1 then [w] else [])
  | .vertical =>
    match getHorizontalWordE b p.row p.col with
    | .error e => .error e
    | .ok w => .ok (if w.length > 1 then [w] else [])

/-- The per-placement cross-word check loop of `MoveCalculator.isValidMove`. -/
def checkCrossWords (b : Board) (dict : TrieDict) (dir : Direction) :
    List Placement → Except Unit Bool
  | [] => .ok true
  | p :: ps =>
    match getCrossWordsE b p dir with
    | .error e => .error e
    | .ok crossWords =>
      if crossWords.any (fun w => decide (w.length > 1) && ! dict.isValidWord w) then .ok false
      else checkCrossWords b dict dir ps

/-- `MoveCalculator.isValidMove(board, move, dictionary)`. -/
def isValidMoveE (b : Board) (m : Move) (dict : TrieDict) : Except Unit Bool :=
  if ¬ dict.isValidWord m.word then .ok false
  else checkCrossWords b dict m.direction m.placements

/-- The word loop of `MoveCalculator.generateMovesFromAnchor`. -/
def tryWordsE (b : Board) (rack : List Char) (dict : TrieDict) (anchor : Anchor)
    (dir : Direction) : List (List Char) → Except Unit (List Move)
  | [] => .ok []
  | w :: ws =>
    match tryPlaceWordE b w anchor dir rack with
    | .error e => .error e
    | .ok none => tryWordsE b rack dict anchor dir ws
    | .ok (some m) =>
      match isValidMoveE b m dict with
      | .error e => .error e
      | .ok valid =>
        match tryWordsE b rack dict anchor dir ws with
        | .error e => .error e
        | .ok rest => .ok ((if valid then [m] else []) ++ rest)

/-- `MoveCalculator.generateMovesFromAnchor(board, rack, dictionary, anchor,
direction)`: enumerate `dictionary.findWords(rack.join(''), 2, 7)`, keep the
first 50 words, and try each. -/
def generateMovesFromAnchorE (b : Board) (rack : List Char) (dict : TrieDict)
    (anchor : Anchor) (dir : Direction) : Except Unit (List Move) :=
  tryWordsE b rack dict anchor dir ((dict.findWords rack 2 7).take 50)

/-- The anchor loop of `MoveCalculator.findAllValidMoves` (horizontal then
vertical moves for each anchor, in order). -/
def movesForAnchorsE (b : Board) (rack : List Char) (dict : TrieDict) :
    List Anchor → Except Unit (List Move)
  | [] => .ok []
  | a :: rest =>
    match generateMovesFromAnchorE b rack dict a .horizontal with
    | .error e => .error e
    | .ok h =>
      match generateMovesFromAnchorE b rack dict a .vertical with
      | .error e => .error e
      | .ok v =>
        match movesForAnchorsE b rack dict rest with
        | .error e => .error e
        | .ok tail => .ok (h ++ v ++ tail)

/-- `MoveCalculator.findAllValidMoves(board, rack, dictionary)`. -/
def findAllValidMovesE (b : Board) (rack : List Char) (dict : TrieDict) :
    Except Unit (List Move) :=
  if ¬ dict.loaded then .ok []
  else
    match findAnchorPointsE b with
    | .error e => .error e
    | .ok anchors =>
      movesForAnchorsE b rack dict (if anchors = [] then [⟨7, 7⟩] else anchors)

/-- The moves `findAllValidMoves` returns (empty when the call throws). -/
def movesOf (b : Board) (rack : List Char) (dict : TrieDict) : List Move :=
  (findAllValidMovesE b rack dict).toOption.getD []

/-! ## `ScrabbleBot` decision policy (`bot-ai.js`) -/

/-- `x || 50` on the numeric `tilesRemaining`: `0` (like a missing field) is
falsy and defaults to 50. -/
def jsOrFifty (n : Nat) : Nat := if n = 0 then 50 else n

/-- The parts of the game state the engine reads. -/
structure GameState where
  board : Board
  tilesRemaining : Nat

/-- `'AEIOU'.includes(tile)`. -/
def vowelChars : List Char := ['A', 'E', 'I', 'O', 'U']

/-- First-occurrence-ordered distinct letters (JS `Object.entries` enumerates
non-numeric string keys in insertion order). -/
def distinctFirstAux (seen : List Char) : List Char → List Char
  | [] => []
  | c :: cs =>
    if c ∈ seen then distinctFirstAux seen cs
    else c :: distinctFirstAux (c :: seen) cs

/-- The `letterCounts` object of `selectTilesToExchange`, as ordered entries. -/
def countsList (rack : List Char) : List (Char × Nat) :=
  (distinctFirstAux [] rack).map (fun c => (c, rack.count c))

/-- `ScrabbleBot.selectTilesToExchange(rack)`. -/
def selectTilesToExchange (rack : List Char) : List Char :=
  let problemTiles := rack.filter (fun tile =>
    decide (8 ≤ (LETTER_VALUES tile).getD 0) || (tile = 'Q' && ! rack.contains 'U'))
  let dups :=
    ((countsList rack).filter (fun lc =>
      decide (lc.2 > 2) && ! vowelChars.contains lc.1)).map Prod.fst
  (problemTiles ++ dups).take (min 7 rack.length)

/-- A move decision `{type: 'move'|'exchange'|'pass', ...}` (the optional
`strategicScore` is only attached by the advanced tier). -/
inductive Decision where
  | move (moves : List Placement) (expectedScore : Nat) (strategicScore : Option Rat)
      (word : List Char)
  | exchange (tiles : List Char)
  | pass
deriving DecidableEq

/-- `ScrabbleBot.getExchangeThreshold(gameState)`. -/
def getExchangeThreshold (gs : GameState) : Rat :=
  let tilesRemaining := jsOrFifty gs.tilesRemaining
  if tilesRemaining > 40 then 15
  else if tilesRemaining > 20 then 10
  else 5

/-- `ScrabbleBot.considerExchange(rack, gameState)`. -/
def considerExchange (rack : List Char) (gs : GameState) : Decision :=
  let tilesRemaining := jsOrFifty gs.tilesRemaining
  if tilesRemaining < 7 then .pass
  else
    let tilesToExchange := selectTilesToExchange rack
    if tilesToExchange.length = 0 then .pass
    else .exchange tilesToExchange

/-- `ScrabbleBot.evaluateRackLeave(rack, tilesUsed)`. The JS literals `0.3`
and `0.5` are modelled as exact rationals. (The `consonants` count in the
source is computed but never used.) -/
def evaluateRackLeave (rack tilesUsed : List Char) : Rat :=
  let remainingTiles := tilesUsed.foldl (fun rem tile => rem.erase tile) rack
  let vcount := (remainingTiles.filter (fun t => vowelChars.contains t)).length
  let leaveScore : Rat :=
    if remainingTiles.length > 0 then
      let vowelRatio : Rat := (vcount : Rat) / (remainingTiles.length : Rat)
      if 3 / 10 ≤ vowelRatio ∧ vowelRatio ≤ 1 / 2 then 5 else 0
    else 0
  let leaveScore := remainingTiles.foldl
    (fun s tile => if (LETTER_VALUES tile).getD 0 > 4 then s - 2 else s) leaveScore
  leaveScore + 3 * ((remainingTiles.filter (fun t => t = 'S' || t = '*')).length : Rat)

/-- `ScrabbleBot.countHookOpportunities` (the board argument is unused in the
source's simplified version). -/
def countHookOpportunities (m : Move) : Nat := min 3 m.placements.length

/-- `ScrabbleBot.evaluateBoardControl(move, board)`: reading
`move.placements[0].row` throws when `placements` is empty. -/
def evaluateBoardControlE (m : Move) : Except Unit Rat :=
  match m.placements with
  | [] => .error ()
  | p :: _ =>
    let centerDistance : Int := ((p.row : Int) - 7).natAbs + ((p.col : Int) - 7).natAbs
    .ok (((max 0 (7 - centerDistance) : Int) : Rat) + (countHookOpportunities m : Rat) * 2)

/-- `ScrabbleBot.evaluateDefensiveValue(move, gameState)`: placement
coordinates are always in 0‥14 (checked in `tryPlaceWord`), so the total
`BOARD_LAYOUT` lookup is faithful. -/
def evaluateDefensiveValue (m : Move) : Rat :=
  m.placements.foldl
    (fun s p =>
      match layoutAt p.row p.col with
      | .tw => s + 5
      | .dw => s + 5
      | _ => s) 0

/-- `ScrabbleBot.evaluateEndgamePosition(move, gameState)` (`* 0.5` is `/ 2`).
An unknown letter would make the JS sum `NaN`; it is modelled as value 0,
which only perturbs the heuristic ranking for impossible tiles. -/
def evaluateEndgamePosition (m : Move) (gs : GameState) : Rat :=
  let tilesRemaining := jsOrFifty gs.tilesRemaining
  if tilesRemaining < 20 then
    ((m.tilesUsed.foldl (fun s tile => s + (LETTER_VALUES tile).getD 0) 0 : Nat) : Rat) / 2
  else 0

/-- `ScrabbleBot.evaluateWordLength(move)`. -/
def evaluateWordLength (m : Move) : Rat :=
  if m.word.length ≥ 7 then 15
  else if m.word.length ≥ 5 then 3
  else 0

/-- `ScrabbleBot.evaluateMove(move, gameState, rack)`. -/
def evaluateMoveE (m : Move) (gs : GameState) (rack : List Char) : Except Unit Rat :=
  match evaluateBoardControlE m with
  | .error e => .error e
  | .ok bc =>
    .ok ((m.score : Rat) + evaluateRackLeave rack m.tilesUsed + bc
      + evaluateDefensiveValue m + evaluateEndgamePosition m gs + evaluateWordLength m)

/-- The `possibleMoves.map(move => ({...move, strategicScore}))` step of
`generateAdvancedMove`. -/
def evalMovesE (gs : GameState) (rack : List Char) :
    List Move → Except Unit (List (Move × Rat))
  | [] => .ok []
  | m :: ms =>
    match evaluateMoveE m gs rack with
    | .error e => .error e
    | .ok s =>
      match evalMovesE gs rack ms with
      | .error e => .error e
      | .ok rest => .ok ((m, s) :: rest)

/-- `ScrabbleBot.generateBasicMove(gameState, rack)` (the 30-second
`timeLimit` variable in the source is never consulted). -/
def generateBasicMoveE (dict : TrieDict) (gs : GameState) (rack : List Char) :
    Except Unit Decision :=
  match findAllValidMovesE gs.board rack dict with
  | .error e => .error e
  | .ok possibleMoves =>
    if possibleMoves.length = 0 then
      if rack.length ≥ 2 then .ok (.exchange (selectTilesToExchange rack))
      else .ok .pass
    else
      match jsSortBy (fun a b => decide (b.score ≤ a.score)) possibleMoves with
      | best :: _ => .ok (.move best.placements best.score none best.word)
      | [] => .error ()

/-- `ScrabbleBot.generateAdvancedMove(gameState, rack)`. -/
def generateAdvancedMoveE (dict : TrieDict) (gs : GameState) (rack : List Char) :
    Except Unit Decision :=
  match findAllValidMovesE gs.board rack dict with
  | .error e => .error e
  | .ok possibleMoves =>
    if possibleMoves.length = 0 then .ok (considerExchange rack gs)
    else
      match evalMovesE gs rack possibleMoves with
      | .error e => .error e
      | .ok evaluatedMoves =>
        match jsSortBy (fun a b => decide (b.2 ≤ a.2)) evaluatedMoves with
        | (best, bestScore) :: _ =>
          if bestScore < getExchangeThreshold gs then .ok (considerExchange rack gs)
          else .ok (.move best.placements best.score (some bestScore) best.word)
        | [] => .error ()

inductive Difficulty where
  | basic | advanced
deriving DecidableEq

/-- The `try` body of `ScrabbleBot.generateMove`. -/
def generateMoveInner (diff : Difficulty) (dict : TrieDict) (gs : GameState)
    (rack : List Char) : Except Unit Decision :=
  match diff with
  | .basic => generateBasicMoveE dict gs rack
  | .advanced => generateAdvancedMoveE dict gs rack

/-- `ScrabbleBot.generateMove(gameState, rack)`: the `catch` clause converts
any thrown error into `{ type: 'pass' }`. -/
def generateMove (diff : Difficulty) (dict : TrieDict) (gs : GameState)
    (rack : List Char) : Decision :=
  match generateMoveInner diff dict gs rack with
  | .ok d => d
  | .error _ => .pass

/-! ## Spec-side definitions for the cross-word property

The source never computes the perpendicular word that a placement actually
creates; these definitions follow the spec's words so the claim can be
stated. -/

/-- The board cell as an optional letter (total, spec-side). -/
def cellAt (b : Board) (r c : Nat) : Option Char :=
  ((List.get? b r).bind (fun row => List.get? row c)).getD none

/-- Replaying a move's placements onto the board snapshot. -/
def placeTiles (b : Board) (ps : List Placement) : Board :=
  ps.foldl
    (fun bd p => bd.set p.row (((List.get? bd p.row).getD []).set p.col (some p.letter))) b

def lineStartUp (b : Board) (c : Nat) : Nat → Nat
  | 0 => 0
  | r + 1 =>
    match cellAt b r c with
    | some _ => lineStartUp b c r
    | none => r + 1

def lineDown (b : Board) (c : Nat) : Nat → Nat → List Char
  | _, 0 => []
  | r, fuel + 1 =>
    if r < 15 then
      match cellAt b r c with
      | some ch => ch :: lineDown b c (r + 1) fuel
      | none => []
    else []

def lineStartLeft (b : Board) (r : Nat) : Nat → Nat
  | 0 => 0
  | c + 1 =>
    match cellAt b r c with
    | some _ => lineStartLeft b r c
    | none => c + 1

def lineRight (b : Board) (r : Nat) : Nat → Nat → List Char
  | _, 0 => []
  | c, fuel + 1 =>
    if c < 15 then
      match cellAt b r c with
      | some ch => ch :: lineRight b r (c + 1) fuel
      | none => []
    else []

/-- Modelled from the spec: "the full line of letters through each new tile,
perpendicular to the placement direction, after the new tiles are placed".
The source has no corresponding computation (its cross-word reader runs on
the pre-placement board). -/
def crossLineThrough (b : Board) (p : Placement) (dir : Direction) : List Char :=
  match dir with
  | .horizontal => lineDown b p.col (lineStartUp b p.col p.row) 16
  | .vertical => lineRight b p.row (lineStartLeft b p.row p.col) 16

/-! ## Lemmas about the trie search -/

mutual
theorem searchWords_sub (n : TrieNode) (cw : List Char) (avail : Char → Nat)
    (minL maxL : Nat) (w : List Char) (hw : w ∈ searchWords n cw avail minL maxL) :
    ∃ s, w = cw ++ s ∧ (∀ c, s.count c ≤ avail c) ∧ minL ≤ w.length ∧ w.length ≤ maxL := by
  match n with
  | .mk ch e wc =>
    rw [searchWords] at hw
    by_cases hlen : cw.length > maxL
    · rw [if_pos hlen] at hw
      exact absurd hw (List.not_mem_nil w)
    · rw [if_neg hlen] at hw
      rcases List.mem_append.1 hw with hl | hr
      · by_cases hcond : e = true ∧ minL ≤ cw.length
        · rw [if_pos (by simpa using hcond)] at hl
          rcases List.mem_singleton.1 hl with rfl
          exact ⟨[], by simp, fun c => by simp, hcond.2, by omega⟩
        · rw [if_neg (by simpa using hcond)] at hl
          exact absurd hl (List.not_mem_nil w)
      · exact searchChildren_sub ch cw avail minL maxL w hr

theorem searchChildren_sub (ch : ChildList) (cw : List Char) (avail : Char → Nat)
    (minL maxL : Nat) (w : List Char) (hw : w ∈ searchChildren ch cw avail minL maxL) :
    ∃ s, w = cw ++ s ∧ (∀ c, s.count c ≤ avail c) ∧ minL ≤ w.length ∧ w.length ≤ maxL := by
  match ch with
  | .nil =>
    rw [searchChildren] at hw
    exact absurd hw (List.not_mem_nil w)
  | .cons letter child rest =>
    rw [searchChildren] at hw
    rcases List.mem_append.1 hw with hl | hr
    · by_cases hav : avail letter > 0
      · rw [if_pos hav] at hl
        obtain ⟨s', hs', hcount, hmin, hmax⟩ :=
          searchWords_sub child (cw ++ [letter]) (decAt avail letter) minL maxL w hl
        refine ⟨letter :: s', by simpa using hs', fun c => ?_, hmin, hmax⟩
        have := hcount c
        by_cases hc : c = letter
        · subst hc
          have hd : decAt avail c c = avail c - 1 := by simp [decAt]
          rw [hd] at this
          have : s'.count c + 1 ≤ avail c := by omega
          simpa [List.count_cons] using this
        · have hd : decAt avail letter c = avail c := by simp [decAt, hc]
          rw [hd] at this
          simpa [List.count_cons, hc] using this
      · rw [if_neg hav] at hl
        exact absurd hl (List.not_mem_nil w)
    · exact searchChildren_sub rest cw avail minL maxL w hr
end

mutual
/-- Well-formedness of a trie node as built by `insert`: every child key is
upper-case-fixed, keys are distinct, and children are well-formed. -/
def TrieNode.Good : TrieNode → Prop
  | .mk ch _ _ => ch.Good

def ChildList.Good : ChildList → Prop
  | .nil => True
  | .cons k n t => jsToUpper k = k ∧ t.get k = none ∧ n.Good ∧ t.Good
end

theorem good_nil : ChildList.Good .nil := trivial

theorem good_empty : TrieNode.Good TrieNode.empty := trivial

theorem get_of_good : ∀ {ch : ChildList} {c : Char} {n : TrieNode},
    ch.Good → ch.get c = some n → n.Good
  | .nil, c, n, _, hget => by simp [ChildList.get] at hget
  | .cons k m t, c, n, hg, hget => by
    rw [ChildList.get] at hget
    by_cases hk : k = c
    · rw [if_pos hk] at hget
      cases hget
      exact hg.2.2.1
    · rw [if_neg hk] at hget
      exact get_of_good hg.2.2.2 hget

theorem key_upper_of_good : ∀ {ch : ChildList} {c : Char} {n : TrieNode},
    ch.Good → ch.get c = some n → jsToUpper c = c
  | .nil, c, n, _, hget => by simp [ChildList.get] at hget
  | .cons k m t, c, n, hg, hget => by
    rw [ChildList.get] at hget
    by_cases hk : k = c
    · subst hk
      exact hg.1
    · rw [if_neg hk] at hget
      exact key_upper_of_good hg.2.2.2 hget

theorem get_set_self : ∀ (ch : ChildList) (c : Char) (n : TrieNode),
    (ch.set c n).get c = some n
  | .nil, c, n => by simp [ChildList.set, ChildList.get]
  | .cons k m t, c, n => by
    rw [ChildList.set]
    by_cases hk : k = c
    · rw [if_pos hk, ChildList.get, if_pos hk]
    · rw [if_neg hk, ChildList.get, if_neg hk]
      exact get_set_self t c n

theorem get_set_ne : ∀ (ch : ChildList) (c c' : Char) (n : TrieNode), c ≠ c' →
    (ch.set c n).get c' = ch.get c'
  | .nil, c, c', n, h => by simp [ChildList.set, ChildList.get, h]
  | .cons k m t, c, c', n, h => by
    rw [ChildList.set]
    by_cases hk : k = c
    · subst hk
      simp only [ChildList.get, if_neg h]
    · rw [if_neg hk]
      simp only [ChildList.get]
      by_cases hk' : k = c'
      · rw [if_pos hk', if_pos hk']
      · rw [if_neg hk', if_neg hk']
        exact get_set_ne t c c' n h

theorem set_good : ∀ {ch : ChildList} {c : Char} {n : TrieNode},
    ch.Good → jsToUpper c = c → n.Good → (ch.set c n).Good
  | .nil, c, n, _, hc, hn => ⟨hc, rfl, hn, trivial⟩
  | .cons k m t, c, n, hg, hc, hn => by
    rw [ChildList.set]
    by_cases hk : k = c
    · subst hk
      rw [if_pos rfl]
      exact ⟨hg.1, hg.2.1, hn, hg.2.2.2⟩
    · rw [if_neg hk]
      refine ⟨hg.1, ?_, hg.2.2.1, set_good hg.2.2.2 hc hn⟩
      rw [get_set_ne t c k n (fun h => hk h.symm)]
      exact hg.2.1

mutual
theorem searchWords_walk (n : TrieNode) (cw : List Char) (avail : Char → Nat)
    (minL maxL : Nat) (w : List Char) (hg : n.Good)
    (hw : w ∈ searchWords n cw avail minL maxL) :
    ∃ s t, w = cw ++ s ∧ n.walk s = some t ∧ t.isEndOfWord = true ∧
      s.map jsToUpper = s := by
  match n with
  | .mk ch e wc =>
    rw [searchWords] at hw
    by_cases hlen : cw.length > maxL
    · rw [if_pos hlen] at hw
      exact absurd hw (List.not_mem_nil w)
    · rw [if_neg hlen] at hw
      rcases List.mem_append.1 hw with hl | hr
      · by_cases hcond : e = true ∧ minL ≤ cw.length
        · rw [if_pos (by simpa using hcond)] at hl
          rcases List.mem_singleton.1 hl with rfl
          exact ⟨[], .mk ch e wc, by simp, rfl, by simpa [TrieNode.isEndOfWord] using hcond.1, rfl⟩
        · rw [if_neg (by simpa using hcond)] at hl
          exact absurd hl (List.not_mem_nil w)
      · obtain ⟨letter, child, s', t, hget, hwd, hwalk, hend, hup⟩ :=
          searchChildren_walk ch cw avail minL maxL w hg hr
        refine ⟨letter :: s', t, hwd, ?_, hend, hup⟩
        rw [TrieNode.walk]
        simp only [TrieNode.children]
        rw [hget]
        exact hwalk

theorem searchChildren_walk (ch : ChildList) (cw : List Char) (avail : Char → Nat)
    (minL maxL : Nat) (w : List Char) (hg : ch.Good)
    (hw : w ∈ searchChildren ch cw avail minL maxL) :
    ∃ letter child s' t, ch.get letter = some child ∧ w = cw ++ letter :: s' ∧
      child.walk s' = some t ∧ t.isEndOfWord = true ∧
      (letter :: s').map jsToUpper = letter :: s' := by
  match ch with
  | .nil =>
    rw [searchChildren] at hw
    exact absurd hw (List.not_mem_nil w)
  | .cons letter child rest =>
    rw [searchChildren] at hw
    rcases List.mem_append.1 hw with hl | hr
    · by_cases hav : avail letter > 0
      · rw [if_pos hav] at hl
        obtain ⟨s, t, hwd, hwalk, hend, hup⟩ :=
          searchWords_walk child (cw ++ [letter]) (decAt avail letter) minL maxL w hg.2.2.1 hl
        refine ⟨letter, child, s, t, ?_, by simpa using hwd, hwalk, hend, ?_⟩
        · rw [ChildList.get, if_pos rfl]
        · simp [hg.1, hup]
      · rw [if_neg hav] at hl
        exact absurd hl (List.not_mem_nil w)
    · obtain ⟨letter', child', s', t, hget, hwd, hwalk, hend, hup⟩ :=
        searchChildren_walk rest cw avail minL maxL w hg.2.2.2 hr
      refine ⟨letter', child', s', t, ?_, hwd, hwalk, hend, hup⟩
      have hne : letter ≠ letter' := by
        intro hcon
        rw [← hcon] at hget
        rw [hg.2.1] at hget
        exact Option.noConfusion hget
      rw [ChildList.get, if_neg hne]
      exact hget
end

theorem insertW_good {t : TrieNode} {w : List Char}
    (hg : t.Good) (hw : ∀ c ∈ w, jsToUpper c = c) : (t.insertW w).1.Good := by
  induction w generalizing t with
  | nil =>
    match t with
    | .mk ch e wc => exact hg
  | cons c cs ih =>
    match t with
    | .mk ch e wc =>
      rw [TrieNode.insertW]
      have hchild : TrieNode.Good (match ch.get c with
          | some u => u
          | none => TrieNode.empty) := by
        match hu : ch.get c with
        | some u => exact get_of_good hg hu
        | none => exact good_empty
      have hrec := ih hchild (fun x hx => hw x (List.mem_cons_of_mem c hx))
      exact set_good hg (hw c (List.mem_cons_self c cs)) hrec

theorem foldl_insert_good (ws : List (List Char)) (d : TrieDict) (hg : d.root.Good) :
    (ws.foldl (fun acc w => acc.insert (w.map jsToUpper)) d).root.Good := by
  induction ws generalizing d with
  | nil => exact hg
  | cons w ws ih =>
    rw [List.foldl_cons]
    refine ih _ ?_
    show ((d.insert (w.map jsToUpper)).root).Good
    unfold TrieDict.insert
    exact insertW_good hg (by
      intro c hc
      obtain ⟨x, _, rfl⟩ := List.mem_map.1 hc
      exact jsToUpper_idem x)

theorem load_root_good (d : TrieDict) (hg : d.root.Good) (ws : List (List Char)) :
    (d.loadDictionary ws).root.Good :=
  foldl_insert_good ws d hg

theorem load_loaded (d : TrieDict) (ws : List (List Char)) :
    (d.loadDictionary ws).loaded = true := rfl

theorem mem_searchWords_of_findWords {d : TrieDict} {letters : List Char}
    {minL maxL : Nat} {w : List Char} (hw : w ∈ d.findWords letters minL maxL) :
    d.loaded = true ∧
      w ∈ searchWords d.root [] (countLetters (letters.map jsToUpper)) minL maxL := by
  unfold TrieDict.findWords at hw
  by_cases hl : d.loaded = true
  · rw [if_neg (by simp [hl])] at hw
    exact ⟨hl, ((jsSortBy_perm _ _).mem_iff).1 hw⟩
  · rw [if_pos (by simpa using hl)] at hw
    exact absurd hw (List.not_mem_nil w)

theorem isValidWord_true {d : TrieDict} {w : List Char} (hl : d.loaded = true)
    (hne : w ≠ []) (hmap : w.map jsToUpper = w) {t : TrieNode}
    (hwalk : d.root.walk w = some t) (hend : t.isEndOfWord = true) :
    d.isValidWord w = true := by
  unfold TrieDict.isValidWord
  rw [if_neg (by simp [hl, hne]), hmap, hwalk]
  exact hend

theorem set_of_get : ∀ (ch : ChildList) (c : Char) (n : TrieNode),
    ch.get c = some n → ch.set c n = ch
  | .nil, c, n, h => by simp [ChildList.get] at h
  | .cons k m t, c, n, h => by
    rw [ChildList.get] at h
    rw [ChildList.set]
    by_cases hk : k = c
    · rw [if_pos hk] at h
      cases h
      rw [if_pos hk]
    · rw [if_neg hk] at h
      rw [if_neg hk, set_of_get t c n h]

theorem insertW_twice : ∀ (t : TrieNode) (w : List Char),
    TrieNode.insertW (TrieNode.insertW t w).1 w = ((TrieNode.insertW t w).1, false)
  | .mk ch e wc, [] => by simp [TrieNode.insertW]
  | .mk ch e wc, c :: cs => by
    have ih := insertW_twice
      (match ch.get c with
        | some u => u
        | none => TrieNode.empty) cs
    simp only [TrieNode.insertW]
    rw [get_set_self]
    simp only [ih]
    rw [set_of_get _ c _ (get_set_self ch c _)]

/-! ## Lemmas about the move calculator -/

theorem placeLoop_spec (b : Board) (rack : List Char) (isH : Bool) (ar ac : Nat) :
    ∀ (ws : List Char) (i : Nat) (pl : List Placement) (tu : List Char) (sc wm : Nat)
      (pl' : List Placement) (tu' : List Char) (sc' wm' : Nat),
      placeLoop b rack isH ar ac ws i pl tu sc wm = .ok (some (pl', tu', sc', wm')) →
      (∀ c, tu'.count c ≤ tu.count c + ws.count c) ∧
      (∀ p ∈ pl, p ∈ pl') ∧
      (∀ p ∈ pl', p ∈ pl ∨ p.letter ∈ rack) := by
  intro ws
  induction ws with
  | nil =>
    intro i pl tu sc wm pl' tu' sc' wm' h
    rw [placeLoop] at h
    cases h
    exact ⟨fun c => by simp, fun p hp => hp, fun p hp => Or.inl hp⟩
  | cons letter rest ih =>
    intro i pl tu sc wm pl' tu' sc' wm' h
    rw [placeLoop] at h
    set row := if isH then ar else ar + i with hrow
    set col := if isH then ac + i else ac with hcol
    by_cases hb : row ≥ 15 ∨ col ≥ 15
    · rw [if_pos hb] at h
      cases h
    · rw [if_neg hb] at h
      match hcell : cellE b row col with
      | .error e => rw [hcell] at h; cases h
      | .ok (.letter existing) =>
        rw [hcell] at h
        simp only at h
        by_cases hex : existing = letter
        · rw [if_pos hex] at h
          obtain ⟨h1, h2, h3⟩ := ih (i + 1) pl tu sc wm pl' tu' sc' wm' h
          refine ⟨fun c => ?_, h2, h3⟩
          have := h1 c
          simp only [List.count_cons]
          omega
        · rw [if_neg hex] at h
          cases h
      | .ok .undef =>
        rw [hcell] at h
        simp only at h
        by_cases hin : letter ∈ rack
        · rw [if_pos hin] at h
          obtain ⟨h1, h2, h3⟩ := ih (i + 1) (pl ++ [⟨row, col, letter⟩]) (tu ++ [letter]) _ _
            pl' tu' sc' wm' h
          refine ⟨fun c => ?_, fun p hp => h2 p (List.mem_append_left _ hp), fun p hp => ?_⟩
          · have := h1 c
            simp only [List.count_append, List.count_cons, List.count_singleton] at *
            by_cases hc : letter = c <;> simp [hc] at * <;> omega
          · rcases h3 p hp with hl | hr
            · rcases List.mem_append.1 hl with hl' | hl'
              · exact Or.inl hl'
              · rcases List.mem_singleton.1 hl' with rfl
                exact Or.inr hin
            · exact Or.inr hr
        · rw [if_neg hin] at h
          cases h
      | .ok .emptyCell =>
        rw [hcell] at h
        simp only at h
        by_cases hin : letter ∈ rack
        · rw [if_pos hin] at h
          obtain ⟨h1, h2, h3⟩ := ih (i + 1) (pl ++ [⟨row, col, letter⟩]) (tu ++ [letter]) _ _
            pl' tu' sc' wm' h
          refine ⟨fun c => ?_, fun p hp => h2 p (List.mem_append_left _ hp), fun p hp => ?_⟩
          · have := h1 c
            simp only [List.count_append, List.count_cons, List.count_singleton] at *
            by_cases hc : letter = c <;> simp [hc] at * <;> omega
          · rcases h3 p hp with hl | hr
            · rcases List.mem_append.1 hl with hl' | hl'
              · exact Or.inl hl'
              · rcases List.mem_singleton.1 hl' with rfl
                exact Or.inr hin
            · exact Or.inr hr
        · rw [if_neg hin] at h
          cases h

theorem tryPlace_some {b : Board} {w : List Char} {a : Anchor} {dir : Direction}
    {rack : List Char} {m : Move} (h : tryPlaceWordE b w a dir rack = .ok (some m)) :
    m.placements ≠ [] ∧ m.word = w ∧ (∀ c, m.tilesUsed.count c ≤ w.count c) ∧
    (∀ p ∈ m.placements, p.letter ∈ rack) := by
  unfold tryPlaceWordE at h
  match hp : placeLoop b rack (decide (dir = Direction.horizontal)) a.row a.col w 0 [] [] 0 1 with
  | .error e => rw [hp] at h; cases h
  | .ok none => rw [hp] at h; cases h
  | .ok (some (pl, tu, sc, wm)) =>
    rw [hp] at h
    simp only at h
    by_cases hpl : pl = []
    · rw [if_pos hpl] at h; cases h
    · rw [if_neg hpl] at h
      cases h
      obtain ⟨h1, _, h3⟩ := placeLoop_spec b rack _ a.row a.col w 0 [] [] 0 1 pl tu sc wm hp
      refine ⟨hpl, rfl, fun c => by simpa using h1 c, fun p hp' => ?_⟩
      rcases h3 p hp' with hl | hr
      · exact absurd hl (List.not_mem_nil p)
      · exact hr

theorem tryWordsE_mem {b : Board} {rack : List Char} {dict : TrieDict} {a : Anchor}
    {dir : Direction} : ∀ {ws : List (List Char)} {ms : List Move},
    tryWordsE b rack dict a dir ws = .ok ms → ∀ {m : Move}, m ∈ ms →
    ∃ w ∈ ws, tryPlaceWordE b w a dir rack = .ok (some m) := by
  intro ws
  induction ws with
  | nil =>
    intro ms h m hm
    rw [tryWordsE] at h
    cases h
    exact absurd hm (List.not_mem_nil m)
  | cons w ws ih =>
    intro ms h m hm
    rw [tryWordsE] at h
    match hp : tryPlaceWordE b w a dir rack with
    | .error e => rw [hp] at h; cases h
    | .ok none =>
      rw [hp] at h
      obtain ⟨w', hw', hres⟩ := ih h hm
      exact ⟨w', List.mem_cons_of_mem w hw', hres⟩
    | .ok (some m0) =>
      rw [hp] at h
      simp only at h
      match hv : isValidMoveE b m0 dict with
      | .error e => rw [hv] at h; cases h
      | .ok valid =>
        rw [hv] at h
        match hr : tryWordsE b rack dict a dir ws with
        | .error e => rw [hr] at h; cases h
        | .ok rest =>
          rw [hr] at h
          cases h
          rcases List.mem_append.1 hm with hl | hrm
          · have : m = m0 := by
              by_cases hvt : valid = true
              · rw [if_pos hvt] at hl
                exact List.mem_singleton.1 hl
              · rw [if_neg hvt] at hl
                exact absurd hl (List.not_mem_nil m)
            subst this
            exact ⟨w, List.mem_cons_self w ws, hp⟩
          · obtain ⟨w', hw', hres⟩ := ih hr hrm
            exact ⟨w', List.mem_cons_of_mem w hw', hres⟩

theorem movesForAnchors_mem {b : Board} {rack : List Char} {dict : TrieDict} :
    ∀ {as : List Anchor} {ms : List Move},
    movesForAnchorsE b rack dict as = .ok ms → ∀ {m : Move}, m ∈ ms →
    ∃ a ∈ as, ∃ dir w, w ∈ (dict.findWords rack 2 7).take 50 ∧
      tryPlaceWordE b w a dir rack = .ok (some m) := by
  intro as
  induction as with
  | nil =>
    intro ms h m hm
    rw [movesForAnchorsE] at h
    cases h
    exact absurd hm (List.not_mem_nil m)
  | cons a as ih =>
    intro ms h m hm
    rw [movesForAnchorsE] at h
    match hh : generateMovesFromAnchorE b rack dict a .horizontal with
    | .error e => rw [hh] at h; cases h
    | .ok hmoves =>
      rw [hh] at h
      match hv : generateMovesFromAnchorE b rack dict a .vertical with
      | .error e => rw [hv] at h; cases h
      | .ok vmoves =>
        rw [hv] at h
        match ht : movesForAnchorsE b rack dict as with
        | .error e => rw [ht] at h; cases h
        | .ok tail =>
          rw [ht] at h
          cases h
          rcases List.mem_append.1 hm with hl | htl
          · rcases List.mem_append.1 hl with hl' | hl'
            · obtain ⟨w, hw, hres⟩ := tryWordsE_mem hh hl'
              exact ⟨a, List.mem_cons_self a as, .horizontal, w, hw, hres⟩
            · obtain ⟨w, hw, hres⟩ := tryWordsE_mem hv hl'
              exact ⟨a, List.mem_cons_self a as, .vertical, w, hw, hres⟩
          · obtain ⟨a', ha', dir, w, hw, hres⟩ := ih ht htl
            exact ⟨a', List.mem_cons_of_mem a ha', dir, w, hw, hres⟩

theorem findAll_mem {b : Board} {rack : List Char} {dict : TrieDict} {ms : List Move}
    (h : findAllValidMovesE b rack dict = .ok ms) {m : Move} (hm : m ∈ ms) :
    ∃ anchors, findAnchorPointsE b = .ok anchors ∧
      ∃ a ∈ (if anchors = [] then ([⟨7, 7⟩] : List Anchor) else anchors), ∃ dir w,
        w ∈ (dict.findWords rack 2 7).take 50 ∧
        tryPlaceWordE b w a dir rack = .ok (some m) := by
  unfold findAllValidMovesE at h
  by_cases hl : dict.loaded = true
  · rw [if_neg (by simp [hl])] at h
    match ha : findAnchorPointsE b with
    | .error e => rw [ha] at h; cases h
    | .ok anchors =>
      rw [ha] at h
      obtain ⟨a, haa, dir, w, hw, hres⟩ := movesForAnchors_mem h hm
      exact ⟨anchors, rfl, a, haa, dir, w, hw, hres⟩
  · rw [if_pos (by simpa using hl)] at h
    cases h
    exact absurd hm (List.not_mem_nil m)

theorem movesOf_mem {b : Board} {rack : List Char} {dict : TrieDict} {m : Move}
    (hm : m ∈ movesOf b rack dict) :
    ∃ ms, findAllValidMovesE b rack dict = .ok ms ∧ m ∈ ms := by
  unfold movesOf at hm
  match hf : findAllValidMovesE b rack dict with
  | .error e =>
    rw [hf] at hm
    exact absurd hm (List.not_mem_nil m)
  | .ok ms =>
    rw [hf] at hm
    exact ⟨ms, rfl, hm⟩

theorem findWords_len {d : TrieDict} {letters : List Char} {minL maxL : Nat}
    {w : List Char} (h : w ∈ d.findWords letters minL maxL) :
    minL ≤ w.length ∧ w.length ≤ maxL := by
  obtain ⟨_, hs⟩ := mem_searchWords_of_findWords h
  obtain ⟨s, _, _, hmin, hmax⟩ := searchWords_sub _ [] _ _ _ _ hs
  exact ⟨hmin, hmax⟩

/-- The emptiness test of a 15×15 board with no tiles. -/
def isEmptyBoard (b : Board) : Bool :=
  b.length == 15 && b.all (fun row => row.length == 15 && row.all (fun x => x == none))

theorem emptyBoard_fields {b : Board} (he : isEmptyBoard b = true) :
    b.length = 15 ∧ ∀ row ∈ b, row.length = 15 ∧ ∀ x ∈ row, x = none := by
  unfold isEmptyBoard at he
  simp only [Bool.and_eq_true, beq_iff_eq, List.all_eq_true] at he
  exact ⟨he.1, fun row hrow => ⟨(he.2 row hrow).1, fun x hx =>
    by simpa using (he.2 row hrow).2 x hx⟩⟩

theorem cellE_empty {b : Board} (he : isEmptyBoard b = true) {r c : Nat}
    (hr : r < 15) (hc : c < 15) : cellE b r c = .ok .emptyCell := by
  obtain ⟨hlen, hrows⟩ := emptyBoard_fields he
  have hr' : r < b.length := by omega
  obtain ⟨hrlen, hnone⟩ := hrows _ (List.get_mem b r hr')
  have hc' : c < (b.get ⟨r, hr'⟩).length := by omega
  unfold cellE
  rw [List.get?_eq_get hr']
  simp only
  rw [List.get?_eq_get hc', hnone _ (List.get_mem _ c hc')]

theorem hasAdjacent_empty {b : Board} (he : isEmptyBoard b = true) {r c : Nat}
    (hr : r < 15) (hc : c < 15) : hasAdjacentTileE b r c = .ok false := by
  unfold hasAdjacentTileE
  have h1 : (if 1 ≤ r ∧ r - 1 < 15 ∧ c < 15
      then Except.map JsVal.isLetter (cellE b (r - 1) c) else .ok false) = .ok false := by
    split
    · rw [cellE_empty he (by omega) hc]; rfl
    · rfl
  have h2 : (if r + 1 < 15 ∧ c < 15
      then Except.map JsVal.isLetter (cellE b (r + 1) c) else .ok false) = .ok false := by
    split
    · next hcond => rw [cellE_empty he hcond.1 hc]; rfl
    · rfl
  have h3 : (if r < 15 ∧ 1 ≤ c ∧ c - 1 < 15
      then Except.map JsVal.isLetter (cellE b r (c - 1)) else .ok false) = .ok false := by
    split
    · rw [cellE_empty he hr (by omega)]; rfl
    · rfl
  have h4 : (if r < 15 ∧ c + 1 < 15
      then Except.map JsVal.isLetter (cellE b r (c + 1)) else .ok false) = .ok false := by
    split
    · next hcond => rw [cellE_empty he hr hcond.2]; rfl
    · rfl
  rw [h1, h2, h3, h4]

theorem anchorsInCols_empty {b : Board} (he : isEmptyBoard b = true) {r : Nat}
    (hr : r < 15) : ∀ (cs : List Nat), (∀ c ∈ cs, c < 15) →
    anchorsInCols b r cs = .ok [] := by
  intro cs
  induction cs with
  | nil => intro _; rw [anchorsInCols]
  | cons c cs ih =>
    intro hcs
    rw [anchorsInCols, cellE_empty he hr (hcs c (List.mem_cons_self c cs))]
    simp only [if_pos rfl]
    rw [hasAdjacent_empty he hr (hcs c (List.mem_cons_self c cs))]
    rw [ih (fun x hx => hcs x (List.mem_cons_of_mem c hx))]
    simp

theorem anchorRows_empty {b : Board} (he : isEmptyBoard b = true) :
    ∀ (rs : List Nat), (∀ r ∈ rs, r < 15) → anchorRows b rs = .ok [] := by
  intro rs
  induction rs with
  | nil => intro _; rw [anchorRows]
  | cons r rs ih =>
    intro hrs
    rw [anchorRows, anchorsInCols_empty he (hrs r (List.mem_cons_self r rs)) _
      (fun c hc => List.mem_range.1 hc)]
    rw [ih (fun x hx => hrs x (List.mem_cons_of_mem r hx))]
    rfl

theorem findAnchors_empty {b : Board} (he : isEmptyBoard b = true) :
    findAnchorPointsE b = .ok [] :=
  anchorRows_empty he (List.range 15) (fun _ hr => List.mem_range.1 hr)

theorem placeLoop_first_in {b : Board} {rack : List Char} {isH : Bool}
    (hcell : cellE b 7 7 = .ok .emptyCell) {letter : Char} {rest : List Char}
    {pl' : List Placement} {tu' : List Char} {sc' wm' : Nat}
    (h : placeLoop b rack isH 7 7 (letter :: rest) 0 [] [] 0 1 =
      .ok (some (pl', tu', sc', wm'))) :
    ∃ p ∈ pl', p.row = 7 ∧ p.col = 7 := by
  rw [placeLoop] at h
  simp only [show (if isH then (7 : Nat) else 7 + 0) = 7 by cases isH <;> simp,
    show (if isH then (7 : Nat) + 0 else 7) = 7 by cases isH <;> simp] at h
  rw [if_neg (by simp)] at h
  rw [hcell] at h
  simp only at h
  by_cases hin : letter ∈ rack
  · rw [if_pos hin] at h
    obtain ⟨_, h2, _⟩ := placeLoop_spec b rack isH 7 7 rest 1
      [⟨7, 7, letter⟩] [letter] _ _ pl' tu' sc' wm' h
    exact ⟨⟨7, 7, letter⟩, h2 _ (List.mem_singleton.2 rfl), rfl, rfl⟩
  · rw [if_neg hin] at h
    cases h

theorem tryPlace_center {b : Board} {w : List Char} {dir : Direction}
    {rack : List Char} {m : Move} (hcell : cellE b 7 7 = .ok .emptyCell)
    (hne : w ≠ []) (h : tryPlaceWordE b w ⟨7, 7⟩ dir rack = .ok (some m)) :
    ∃ p ∈ m.placements, p.row = 7 ∧ p.col = 7 := by
  match w, hne with
  | letter :: rest, _ =>
    unfold tryPlaceWordE at h
    match hp : placeLoop b rack (decide (dir = Direction.horizontal)) 7 7
        (letter :: rest) 0 [] [] 0 1 with
    | .error e => rw [hp] at h; cases h
    | .ok none => rw [hp] at h; cases h
    | .ok (some (pl, tu, sc, wm)) =>
      rw [hp] at h
      simp only at h
      by_cases hpl : pl = []
      · rw [if_pos hpl] at h; cases h
      · rw [if_neg hpl] at h
        cases h
        exact placeLoop_first_in hcell hp

theorem char_toNat_le_of_le {a b : Char} (h : a ≤ b) : a.toNat ≤ b.toNat := by
  have h1 : a.val ≤ b.val := Char.le_def.1 h
  have h2 := UInt32.le_def.1 h1
  simpa [Char.toNat, UInt32.toNat, BitVec.le_def] using h2

theorem jsToUpper_fixed_of_AZ {c : Char} (h1 : 'A' ≤ c) (h2 : c ≤ 'Z') :
    jsToUpper c = c := by
  have ha : 65 ≤ c.toNat := by simpa using char_toNat_le_of_le h1
  have hb : c.toNat ≤ 90 := by simpa using char_toNat_le_of_le h2
  unfold jsToUpper Char.toUpper
  rw [if_neg (by omega)]

theorem rack_map_upper {rack : List Char}
    (h : ∀ c ∈ rack, c = '*' ∨ ('A' ≤ c ∧ c ≤ 'Z')) :
    rack.map jsToUpper = rack := by
  induction rack with
  | nil => rfl
  | cons c cs ih =>
    rw [List.map_cons]
    have hc : jsToUpper c = c := by
      rcases h c (List.mem_cons_self c cs) with rfl | ⟨h1, h2⟩
      · decide
      · exact jsToUpper_fixed_of_AZ h1 h2
    rw [hc, ih (fun x hx => h x (List.mem_cons_of_mem c hx))]

/-! ## Decision-layer lemmas -/

instance {ε α : Type} [DecidableEq ε] [DecidableEq α] : DecidableEq (Except ε α) :=
  fun x y =>
    match x, y with
    | .error a, .error b =>
      if h : a = b then .isTrue (by rw [h])
      else .isFalse (by intro hc; cases hc; exact h rfl)
    | .error _, .ok _ => .isFalse (by intro hc; cases hc)
    | .ok _, .error _ => .isFalse (by intro hc; cases hc)
    | .ok a, .ok b =>
      if h : a = b then .isTrue (by rw [h])
      else .isFalse (by intro hc; cases hc; exact h rfl)

/-- A structurally sane decision: a `move` decision carries at least one
placement; `exchange` and `pass` are always well-formed. -/
def wellFormedDecision : Decision → Bool
  | .move pl _ _ _ => ! pl.isEmpty
  | .exchange _ => true
  | .pass => true

theorem considerExchange_wf (rack : List Char) (gs : GameState) :
    wellFormedDecision (considerExchange rack gs) = true := by
  unfold considerExchange
  dsimp only
  split
  · rfl
  · split <;> rfl

theorem evalMovesE_mem {gs : GameState} {rack : List Char} :
    ∀ {ms : List Move} {ps : List (Move × Rat)}, evalMovesE gs rack ms = .ok ps →
    ∀ {m : Move} {s : Rat}, (m, s) ∈ ps → m ∈ ms := by
  intro ms
  induction ms with
  | nil =>
    intro ps h m s hm
    rw [evalMovesE] at h
    cases h
    exact absurd hm (List.not_mem_nil _)
  | cons m0 ms ih =>
    intro ps h m s hm
    rw [evalMovesE] at h
    match he : evaluateMoveE m0 gs rack with
    | .error e => rw [he] at h; cases h
    | .ok s0 =>
      rw [he] at h
      simp only at h
      match hr : evalMovesE gs rack ms with
      | .error e => rw [hr] at h; cases h
      | .ok rest =>
        rw [hr] at h
        cases h
        rcases List.mem_cons.1 hm with hl | hrm
        · cases hl
          exact List.mem_cons_self m0 ms
        · exact List.mem_cons_of_mem m0 (ih hr hrm)

theorem moves_placements_ne {b : Board} {rack : List Char} {dict : TrieDict}
    {ms : List Move} (h : findAllValidMovesE b rack dict = .ok ms) {m : Move}
    (hm : m ∈ ms) : m.placements ≠ [] := by
  obtain ⟨anchors, _, a, _, dir, w, _, hres⟩ := findAll_mem h hm
  exact (tryPlace_some hres).1

theorem generateBasic_wf {dict : TrieDict} {gs : GameState} {rack : List Char}
    {d : Decision} (h : generateBasicMoveE dict gs rack = .ok d) :
    wellFormedDecision d = true := by
  unfold generateBasicMoveE at h
  match hf : findAllValidMovesE gs.board rack dict with
  | .error e => rw [hf] at h; cases h
  | .ok possibleMoves =>
    rw [hf] at h
    simp only at h
    by_cases hlen : possibleMoves.length = 0
    · rw [if_pos hlen] at h
      by_cases hrk : rack.length ≥ 2
      · rw [if_pos hrk] at h
        cases h
        rfl
      · rw [if_neg hrk] at h
        cases h
        rfl
    · rw [if_neg hlen] at h
      match hs : jsSortBy (fun a b => decide (b.score ≤ a.score)) possibleMoves with
      | [] => rw [hs] at h; cases h
      | best :: rest =>
        rw [hs] at h
        cases h
        have hb : best ∈ possibleMoves :=
          (jsSortBy_perm (fun a b => decide (b.score ≤ a.score)) possibleMoves).mem_iff.1
            (by rw [hs]; exact List.mem_cons_self _ _)
        have hne := moves_placements_ne hf hb
        unfold wellFormedDecision
        cases hpl : best.placements with
        | nil => exact absurd hpl hne
        | cons p ps => simp [hpl]

theorem generateAdvanced_wf {dict : TrieDict} {gs : GameState} {rack : List Char}
    {d : Decision} (h : generateAdvancedMoveE dict gs rack = .ok d) :
    wellFormedDecision d = true := by
  unfold generateAdvancedMoveE at h
  match hf : findAllValidMovesE gs.board rack dict with
  | .error e => rw [hf] at h; cases h
  | .ok possibleMoves =>
    rw [hf] at h
    simp only at h
    by_cases hlen : possibleMoves.length = 0
    · rw [if_pos hlen] at h
      cases h
      exact considerExchange_wf rack gs
    · rw [if_neg hlen] at h
      match he : evalMovesE gs rack possibleMoves with
      | .error e => rw [he] at h; cases h
      | .ok evaluated =>
        rw [he] at h
        simp only at h
        match hs : jsSortBy (fun a b => decide (b.2 ≤ a.2)) evaluated with
        | [] => rw [hs] at h; cases h
        | (best, bestScore) :: rest =>
          rw [hs] at h
          simp only at h
          by_cases hth : bestScore < getExchangeThreshold gs
          · rw [if_pos hth] at h
            cases h
            exact considerExchange_wf rack gs
          · rw [if_neg hth] at h
            cases h
            have hb : (best, bestScore) ∈ evaluated :=
              (jsSortBy_perm (fun a b => decide (b.2 ≤ a.2)) evaluated).mem_iff.1
                (by rw [hs]; exact List.mem_cons_self _ _)
            have hbm : best ∈ possibleMoves := evalMovesE_mem he hb
            have hne := moves_placements_ne hf hbm
            unfold wellFormedDecision
            cases hpl : best.placements with
            | nil => exact absurd hpl hne
            | cons p ps => simp [hpl]

theorem distinctFirstAux_not_mem_seen :
    ∀ (l : List Char) (seen : List Char) (c : Char),
    c ∈ distinctFirstAux seen l → c ∉ seen := by
  intro l
  induction l with
  | nil =>
    intro seen c hc
    rw [distinctFirstAux] at hc
    exact absurd hc (List.not_mem_nil c)
  | cons c0 cs ih =>
    intro seen c hc
    rw [distinctFirstAux] at hc
    by_cases h0 : c0 ∈ seen
    · rw [if_pos h0] at hc
      exact ih seen c hc
    · rw [if_neg h0] at hc
      rcases List.mem_cons.1 hc with rfl | hmem
      · exact h0
      · intro hcon
        exact ih (c0 :: seen) c hmem (List.mem_cons_of_mem c0 hcon)

theorem distinctFirstAux_nodup :
    ∀ (l : List Char) (seen : List Char), (distinctFirstAux seen l).Nodup := by
  intro l
  induction l with
  | nil =>
    intro seen
    rw [distinctFirstAux]
    exact List.nodup_nil
  | cons c0 cs ih =>
    intro seen
    rw [distinctFirstAux]
    by_cases h0 : c0 ∈ seen
    · rw [if_pos h0]
      exact ih seen
    · rw [if_neg h0]
      refine List.nodup_cons.2 ⟨fun hcon => ?_, ih (c0 :: seen)⟩
      exact distinctFirstAux_not_mem_seen cs (c0 :: seen) c0 hcon
        (List.mem_cons_self c0 seen)

/-! ## Concrete fixtures -/

def emptyRow : List (Option Char) := List.replicate 15 none

def emptyBoard15 : Board := List.replicate 15 emptyRow

/-- A board whose only tile is a `'C'` at row 8, column 7. -/
def boardWithC : Board := emptyBoard15.set 8 (emptyRow.set 7 (some 'C'))

/-- A dictionary loaded with the single word `AB`. -/
def dictAB : TrieDict := TrieDict.mkEmpty.loadDictionary [['A', 'B']]

/-- A dictionary that was never loaded. -/
def unloadedDict : TrieDict := TrieDict.mkEmpty

def rackAB : List Char := ['A', 'B']

def rackQJ : List Char := ['Q', 'J']

def rackJJJA : List Char := ['J', 'J', 'J', 'A', 'A', 'A', 'A']

/-- The move the search produces for `AB` played horizontally from the
centre anchor. -/
def moveAB77 : Move :=
  ⟨[⟨7, 7, 'A'⟩, ⟨7, 8, 'B'⟩], ['A', 'B'], 4, ['A', 'B'], .horizontal, ⟨7, 7⟩⟩

/-- A dictionary loaded from an array containing the empty string. -/
def dictEmptyWord : TrieDict := TrieDict.mkEmpty.loadDictionary [[]]

/-! ## Claims -/

/-- C1: the claim says every perpendicular cross-word (length > 1) that a
returned move's new tiles would form, on the board after placement, is a
dictionary word. The code reads cross-words off the *pre-placement* board
(where the placement cell is empty), so the actual cross-word through a new
tile is never checked: with only `'C'` at (8,7) and the word `AB` placed
horizontally at (7,7)–(7,8), the returned move forms the vertical word `AC`
through (7,7), which is not in the dictionary. -/
theorem c1_crossword_not_validated :
    moveAB77 ∈ movesOf boardWithC rackAB dictAB ∧
    (⟨7, 7, 'A'⟩ : Placement) ∈ moveAB77.placements ∧
    crossLineThrough (placeTiles boardWithC moveAB77.placements) ⟨7, 7, 'A'⟩
      moveAB77.direction = ['A', 'C'] ∧
    (1 < (['A', 'C'] : List Char).length) ∧
    dictAB.isValidWord ['A', 'C'] = false := by decide

/-- C2 (counterexample): the claim asserts that for some board, anchor and
rack containing `'*'`, a word needing a letter not otherwise in the rack is
still placed with the blank standing in. No such situation exists:
`tryPlaceWord` only ever places a letter that is literally in the rack
(`rack.includes(letter)`), so blank substitution never happens. -/
theorem c2_counterexample :
    ¬ ∃ (b : Board) (w : List Char) (a : Anchor) (dir : Direction)
      (rack : List Char) (m : Move),
      '*' ∈ rack ∧ tryPlaceWordE b w a dir rack = .ok (some m) ∧
      ∃ p ∈ m.placements, p.letter ∉ rack := by
  rintro ⟨b, w, a, dir, rack, m, _, hres, p, hp, hnot⟩
  exact hnot ((tryPlace_some hres).2.2.2 p hp)

/-- C2 (amended): a letter aligning with an empty cell must itself be present
in the rack; the blank marker `'*'` is never substituted for another letter —
every letter placed by `tryPlaceWord` occurs literally in the rack. -/
theorem c2_amended_letters_in_rack (b : Board) (w : List Char) (a : Anchor)
    (dir : Direction) (rack : List Char) (m : Move)
    (h : tryPlaceWordE b w a dir rack = .ok (some m)) :
    ∀ p ∈ m.placements, p.letter ∈ rack :=
  (tryPlace_some h).2.2.2

/-- C2 witness: at a concrete placement the theorem yields that the placed
letter `'A'` is in the rack. -/
theorem c2_amended_letters_in_rack_witness : ('A' : Char) ∈ rackAB :=
  c2_amended_letters_in_rack emptyBoard15 ['A', 'B'] ⟨7, 7⟩ .horizontal rackAB
    moveAB77 (by decide) ⟨7, 7, 'A'⟩ (by decide)

/-- C3 (counterexample): the claim requires Pass whenever the bag holds fewer
than 7 tiles, but `generateBasicMove` never consults the bag: with no
candidate moves, a 2-tile rack and only 3 tiles remaining, it exchanges. -/
theorem c3_counterexample :
    (⟨emptyBoard15, 3⟩ : GameState).tilesRemaining < 7 ∧
    generateMove .basic unloadedDict ⟨emptyBoard15, 3⟩ rackQJ =
      .exchange ['Q', 'J'] := by decide

/-- C3 (amended): in the basic tier, when Move Search yields no candidate
moves the decision is Exchange exactly when the rack has at least 2 tiles —
the number of tiles remaining in the bag is not consulted — and Pass
otherwise. -/
theorem c3_amended_basic_exchange (dict : TrieDict) (gs : GameState)
    (rack : List Char) (h : findAllValidMovesE gs.board rack dict = .ok []) :
    generateBasicMoveE dict gs rack =
      .ok (if rack.length ≥ 2 then .exchange (selectTilesToExchange rack)
           else .pass) := by
  unfold generateBasicMoveE
  rw [h]
  by_cases hr : rack.length ≥ 2 <;> simp [hr]

/-- C3 witness: the amended theorem applied at the concrete no-move state. -/
theorem c3_amended_basic_exchange_witness :
    generateBasicMoveE unloadedDict ⟨emptyBoard15, 3⟩ rackQJ =
      .ok (if rackQJ.length ≥ 2 then .exchange (selectTilesToExchange rackQJ)
           else .pass) :=
  c3_amended_basic_exchange unloadedDict ⟨emptyBoard15, 3⟩ rackQJ (by decide)

/-- C4: `considerExchange` computes `gameState.tilesRemaining || 50`, and `0`
is falsy in JS, so with an empty bag the `< 7` pass-guard sees `50` and the
bot exchanges — contradicting the claim, the spec, and the code's own
comment "Don't exchange if few tiles left". For 1 ≤ tilesRemaining ≤ 6 the
guard works (first conjunct); at exactly 0 it exchanges (second and third). -/
theorem c4_zero_bag_exchanges :
    considerExchange rackQJ ⟨emptyBoard15, 3⟩ = .pass ∧
    considerExchange rackQJ ⟨emptyBoard15, 0⟩ = .exchange ['Q', 'J'] ∧
    generateMove .advanced unloadedDict ⟨emptyBoard15, 0⟩ rackQJ =
      .exchange ['Q', 'J'] := by decide

/-- C5: for every board, rack over the Scrabble alphabet (A–Z plus the blank
marker `'*'`), and dictionary, the `tilesUsed` of any move returned by
`findAllValidMoves` is a sub-multiset of the rack. -/
theorem c5_tilesUsed_submultiset (b : Board) (rack : List Char) (dict : TrieDict)
    (m : Move) (hrack : ∀ c ∈ rack, c = '*' ∨ ('A' ≤ c ∧ c ≤ 'Z'))
    (hm : m ∈ movesOf b rack dict) :
    ∀ c, m.tilesUsed.count c ≤ rack.count c := by
  intro c
  obtain ⟨ms, hms, hmem⟩ := movesOf_mem hm
  obtain ⟨anchors, _, a, _, dir, w, hw, hres⟩ := findAll_mem hms hmem
  have hw' : w ∈ dict.findWords rack 2 7 := List.take_subset 50 _ hw
  obtain ⟨hl, hs⟩ := mem_searchWords_of_findWords hw'
  obtain ⟨s, hws, hcount, _, _⟩ := searchWords_sub _ [] _ _ _ _ hs
  have hwse : w = s := by simpa using hws
  have hcw : w.count c ≤ (rack.map jsToUpper).count c := by
    rw [hwse]
    simpa [countLetters] using hcount c
  rw [rack_map_upper hrack] at hcw
  exact le_trans ((tryPlace_some hres).2.2.1 c) hcw

/-- C5 witness: the theorem applied to the concrete board/rack/dictionary and
the concrete returned move. -/
theorem c5_tilesUsed_submultiset_witness :
    moveAB77.tilesUsed.count 'A' ≤ rackAB.count 'A' :=
  c5_tilesUsed_submultiset boardWithC rackAB dictAB moveAB77 (by decide)
    (by decide) 'A'

/-- C6: on an entirely empty 15×15 board, every move returned by
`findAllValidMoves` includes a placement at the centre cell (7,7): the anchor
scan finds nothing, the synthetic centre anchor is used, and the word's first
letter lands on the (empty) centre cell. -/
theorem c6_first_move_center (b : Board) (rack : List Char) (dict : TrieDict)
    (m : Move) (hb : isEmptyBoard b = true) (hm : m ∈ movesOf b rack dict) :
    ∃ p ∈ m.placements, p.row = 7 ∧ p.col = 7 := by
  obtain ⟨ms, hms, hmem⟩ := movesOf_mem hm
  obtain ⟨anchors, hanch, a, ha, dir, w, hw, hres⟩ := findAll_mem hms hmem
  have hempty : anchors = [] :=
    (Except.ok.inj ((findAnchors_empty hb).symm.trans hanch)).symm
  subst hempty
  have ha77 : a = ⟨7, 7⟩ := by simpa using ha
  subst ha77
  have hwne : w ≠ [] := by
    have hlen := (findWords_len (List.take_subset 50 _ hw)).1
    intro hnil
    rw [hnil] at hlen
    simp at hlen
  exact tryPlace_center (cellE_empty hb (by omega) (by omega)) hwne hres

/-- C6 witness: the theorem applied to the concrete empty board and a
concrete returned move. -/
theorem c6_first_move_center_witness :
    ∃ p ∈ moveAB77.placements, p.row = 7 ∧ p.col = 7 :=
  c6_first_move_center emptyBoard15 rackAB dictAB moveAB77 (by decide) (by decide)

/-- C7: `generateMove` is total: on every input it returns a structurally
well-formed decision (a `move` decision always carries at least one
placement), and whenever the wrapped computation throws, the `catch` clause
converts the error into a Pass decision. -/
theorem c7_generateMove_total (diff : Difficulty) (dict : TrieDict)
    (gs : GameState) (rack : List Char) :
    wellFormedDecision (generateMove diff dict gs rack) = true ∧
    (∀ e, generateMoveInner diff dict gs rack = .error e →
      generateMove diff dict gs rack = .pass) := by
  constructor
  · cases diff with
    | basic =>
      unfold generateMove generateMoveInner
      match hi : generateBasicMoveE dict gs rack with
      | .error e => rfl
      | .ok d => exact generateBasic_wf hi
    | advanced =>
      unfold generateMove generateMoveInner
      match hi : generateAdvancedMoveE dict gs rack with
      | .error e => rfl
      | .ok d => exact generateAdvanced_wf hi
  · intro e he
    unfold generateMove
    rw [he]

/-- C7 witness: on a malformed (empty) board the search throws and the
decision degrades to Pass. -/
theorem c7_generateMove_total_witness :
    generateMove .basic dictAB ⟨[], 0⟩ [] = Decision.pass :=
  (c7_generateMove_total .basic dictAB ⟨[], 0⟩ []).2 () (by decide)

/-- C8 (counterexample): `loadDictionary` does not filter empty strings, so
after loading `[""]` an enumeration with `minLength = 0` returns the empty
word, which `isValidWord` rejects (the empty string is falsy). -/
theorem c8_counterexample :
    ([] : List Char) ∈ dictEmptyWord.findWords [] 0 15 ∧
    dictEmptyWord.isValidWord [] = false := by decide

/-- C8 (amended): for every dictionary built by `loadDictionary`, every
letter string and length bounds with `minLength ≥ 1`, every word returned by
`findWords` uses no more copies of each letter than are present in the
(case-normalised) letters, and satisfies `isValidWord`. -/
theorem c8_amended_enumeration_sound (ws : List (List Char)) (letters : List Char)
    (minL maxL : Nat) (w : List Char) (c : Char) (hmin : 1 ≤ minL)
    (hw : w ∈ (TrieDict.mkEmpty.loadDictionary ws).findWords letters minL maxL) :
    w.count c ≤ (letters.map jsToUpper).count c ∧
    (TrieDict.mkEmpty.loadDictionary ws).isValidWord w = true := by
  obtain ⟨hl, hs⟩ := mem_searchWords_of_findWords hw
  obtain ⟨s, hws, hcount, hminlen, _⟩ := searchWords_sub _ [] _ _ _ _ hs
  have hwse : w = s := by simpa using hws
  constructor
  · rw [hwse]
    simpa [countLetters] using hcount c
  · obtain ⟨s', t, hws', hwalk, hend, hup⟩ := searchWords_walk _ [] _ _ _ _
      (load_root_good TrieDict.mkEmpty good_empty ws) hs
    have hwse' : w = s' := by simpa using hws'
    have hne : w ≠ [] := by
      intro hnil
      rw [hnil] at hminlen
      simp at hminlen
      omega
    refine isValidWord_true hl hne ?_ ?_ hend
    · rw [hwse']
      exact hup
    · rw [hwse']
      exact hwalk

/-- C8 witness: the amended theorem applied to a concrete dictionary, letter
multiset and enumerated word. -/
theorem c8_amended_enumeration_sound_witness :
    (['A', 'B'] : List Char).count 'A' ≤
      ((['A', 'B'] : List Char).map jsToUpper).count 'A' ∧
    (TrieDict.mkEmpty.loadDictionary [['A', 'B']]).isValidWord ['A', 'B'] = true :=
  c8_amended_enumeration_sound [['A', 'B']] ['A', 'B'] 2 7 ['A', 'B'] 'A'
    (by decide) (by decide)

/-- C9: `TrieDict.insert` is idempotent — inserting the same word twice gives
the very same dictionary (same nodes, same terminal flags, same `wordCount`)
as inserting it once; in particular the second insertion does not increment
`wordCount`. -/
theorem c9_insert_idempotent (d : TrieDict) (w : List Char) :
    (d.insert w).insert w = d.insert w := by
  unfold TrieDict.insert
  rw [insertW_twice]
  simp

/-- C10 (counterexample): for the rack `J,J,J,A,A,A,A` the duplicate-letter
pass appends a fourth `'J'` to the three collected as problem tiles, and the
length cap (`min 7 rack.length = 7`) does not trim it, so the exchange list
holds four `'J'`s while the rack holds three. -/
theorem c10_counterexample :
    ¬ ((selectTilesToExchange rackJJJA).count 'J' ≤ rackJJJA.count 'J') := by
  decide

/-- C10 (amended): the exchange list can exceed a letter's rack multiplicity
by at most one: the problem-tile filter contributes at most the rack count,
and the duplicate pass appends each over-duplicated non-vowel once. -/
theorem c10_amended_exchange_bound (rack : List Char) (c : Char) :
    (selectTilesToExchange rack).count c ≤ rack.count c + 1 := by
  have hstep : ∀ pt dups : List Char, pt.count c ≤ rack.count c → dups.count c ≤ 1 →
      ((pt ++ dups).take (min 7 rack.length)).count c ≤ rack.count c + 1 := by
    intro pt dups h1 h2
    have htake : ((pt ++ dups).take (min 7 rack.length)).count c ≤ (pt ++ dups).count c :=
      List.Sublist.count_le (List.take_sublist _ _) c
    rw [List.count_append] at htake
    omega
  unfold selectTilesToExchange
  dsimp only
  apply hstep
  · exact List.Sublist.count_le (List.filter_sublist rack) c
  · refine le_trans
      (List.Sublist.count_le (List.Sublist.map Prod.fst
        (List.filter_sublist (countsList rack))) c) ?_
    have hmapfst : ∀ l : List Char, (l.map (fun c => (c, rack.count c))).map Prod.fst = l := by
      intro l
      induction l with
      | nil => rfl
      | cons x xs ih => simp only [List.map_cons, ih]
    have hkeys : (countsList rack).map Prod.fst = distinctFirstAux [] rack :=
      hmapfst (distinctFirstAux [] rack)
    rw [hkeys]
    exact List.nodup_iff_count_le_one.1 (distinctFirstAux_nodup rack []) c

end Scrabble
